import Mathlib

/-!
Verification of the leaky-bucket Redis rate limiter
(`leaky_bucket/leaky_bucket_redis.go`).

Shallow embedding: high-precision timestamps (Go `float64(now.UnixNano())/1e9`,
Lua numbers) are modelled as rationals `ℚ`.  A Redis sorted set is a list of
entries, each carrying a member and a score; the shared store maps each key to
a bucket record (its sorted set and its time-to-live).  The Lua script run by
`Allow` is translated call by call:

  ZREMRANGEBYSCORE key -inf (ts-1)   -- removes every entry with score ≤ ts-1
                                        (the max bound of ZREMRANGEBYSCORE is
                                        inclusive in Redis)
  ZREVRANGE key 0 0 WITHSCORES       -- the script only consumes the returned
                                        score `last_tokens[2]`, i.e. the
                                        maximal score of the set
  ZADD key next_time next_time       -- inserts member next_time with score
                                        next_time, or updates the score if the
                                        member is already present
  EXPIRE key 2                       -- sets the record TTL to 2 seconds
-/

namespace LeakyBucket

/-- One entry of a Redis sorted set: a member together with its score.
In this program members are themselves timestamps (ZADD key t t). -/
structure ZEntry where
  member : ℚ
  score : ℚ
deriving DecidableEq, Repr

/-- A bucket record in the store: the sorted-set entries for the key, and the
time-to-live (in seconds) last set on the key, if any. -/
structure BucketRecord where
  entries : List ZEntry
  ttl : Option ℚ
deriving DecidableEq, Repr

/-- The shared Redis store: each key holds a bucket record; an absent key is
the empty record (Redis treats a missing key as an empty sorted set). -/
def Store : Type := String → BucketRecord

/-- The store with no bucket records at all. -/
def emptyStore : Store := fun _ => ⟨[], none⟩

/-- `ZREMRANGEBYSCORE key -inf (ts-1)` keeps exactly the entries whose score
is strictly greater than `ts - 1` (the upper bound of the removed range is
inclusive). -/
def pruneEntries (ts : ℚ) (es : List ZEntry) : List ZEntry :=
  es.filter (fun e => ¬ e.score ≤ ts - 1)

/-- The score returned by `ZREVRANGE key 0 0 WITHSCORES` (`last_tokens[2]` in
the script): the maximal score of the set, `none` when the set is empty. -/
def lastScore : List ZEntry → Option ℚ
  | [] => none
  | e :: es => some (es.foldl (fun a b => max a b.score) e.score)

/-- `ZADD key score member`: update the score of `member` when present,
otherwise insert a fresh entry. -/
def zadd (es : List ZEntry) (score member : ℚ) : List ZEntry :=
  if es.any (fun e => e.member = member) then
    es.map (fun e => if e.member = member then ⟨e.member, score⟩ else e)
  else
    ⟨member, score⟩ :: es

/-- The Lua script of `Allow`, executed atomically by Redis: prune entries
older than one second, read the last token's score, compute `next_time`,
`ZADD` the new token, `EXPIRE` the key to 2 seconds, and return
`math.max(0, next_time - ts)`.  Returns the updated store and the wait. -/
def luaScript (key : String) (ts rate : ℚ) (st : Store) : Store × ℚ :=
  let pruned := pruneEntries ts (st key).entries
  let next_time :=
    match lastScore pruned with
    | none => ts
    | some last_time =>
      let token_interval := 1 / rate
      let nt := last_time + token_interval
      if ts ≥ nt then ts else nt
  let entries2 := zadd pruned next_time next_time
  (fun k => if k = key then ⟨entries2, some 2⟩ else st k,
   max 0 (next_time - ts))

/-- The `LeakyBucketRedis` struct: a store client handle, the bucket key and
the rate in requests per second.  The client handle type is opaque to the
core. -/
structure LeakyBucketRedis (Client : Type) where
  client : Client
  key : String
  rate : ℚ

/-- `NewLeakyBucket(client, key, rate)`: returns nil (`none`) when the key is
empty or the rate is ≤ 0, otherwise the constructed instance. -/
def NewLeakyBucket {Client : Type} (client : Client) (key : String) (rate : ℚ) :
    Option (LeakyBucketRedis Client) :=
  if key = "" ∨ rate ≤ 0 then none
  else some ⟨client, key, rate⟩

/-- The successful path of `Allow`: run the script at timestamp `now`, decode
the returned wait (`if waitSeconds <= 0 { return 0 }`, else the duration).
Returns the wait and the updated store. -/
def Allow {Client : Type} (lb : LeakyBucketRedis Client) (now : ℚ) (st : Store) :
    ℚ × Store :=
  let r := luaScript lb.key now lb.rate st
  ((if r.2 ≤ 0 then 0 else r.2), r.1)

/-- The result decode / fallback logic of `Allow` (lines after the Eval call):
`reply = none` models `err != nil` from the round-trip (store unreachable,
timeout, or the context already cancelled); on a string reply, `parse` models
`strconv.ParseFloat`, whose failure also yields 0; a nonpositive parsed wait
yields 0. -/
def allowDecode (reply : Option String) (parse : String → Option ℚ) : ℚ :=
  match reply with
  | none => 0
  | some s =>
    match parse s with
    | none => 0
    | some w => if w ≤ 0 then 0 else w

/-- A Go `error` value, identified by its message. -/
structure GoError where
  msg : String
deriving DecidableEq

/-- `ErrInvalidRate = errors.New("rate must be greater than 0")`. -/
def ErrInvalidRate : GoError := ⟨"rate must be greater than 0"⟩

/-- `ErrInvalidKey = errors.New("key cannot be empty")`. -/
def ErrInvalidKey : GoError := ⟨"key cannot be empty"⟩

/-- The space of values the package can hand back to a caller: an error
value, a (possibly nil) bucket pointer, or a duration. -/
inductive GoValue (Client : Type) where
  | errVal (e : GoError)
  | ptr (lb : Option (LeakyBucketRedis Client))
  | dur (d : ℚ)

/-- What `NewLeakyBucket` hands back, embedded into the space of package
values: always a pointer, possibly nil. -/
def constructReturn {Client : Type} (client : Client) (key : String) (rate : ℚ) :
    GoValue Client :=
  GoValue.ptr (NewLeakyBucket client key rate)

/-- What `Allow` hands back after the round-trip, embedded into the space of
package values: always a duration. -/
def allowReturn (Client : Type) (reply : Option String) (parse : String → Option ℚ) :
    GoValue Client :=
  GoValue.dur (allowDecode reply parse)

/-- Well-formed bucket record contents, per the data model: each entry is
scored by its own member value, and members are pairwise distinct (a Redis
sorted set cannot hold a member twice). -/
def WF (es : List ZEntry) : Prop :=
  (∀ e ∈ es, e.member = e.score) ∧ (es.map ZEntry.member).Nodup

/-- Store states reachable from the empty store by successful `Allow`
round-trips (each on some key, at some timestamp, with some positive rate).
A failed round-trip leaves the store unchanged, so it adds no states. -/
inductive Reachable : Store → Prop where
  | empty : Reachable emptyStore
  | step (st : Store) (key : String) (now rate : ℚ) (hr : 0 < rate)
      (h : Reachable st) : Reachable (luaScript key now rate st).1

/-- The `next_time` computation as §4.1 of the spec words it, over the pruned
record: `now` when no entry exists; otherwise `last_time + 1/rate`, collapsed
to `now` when it is ≤ `now`. -/
def specNextTime (now rate : ℚ) (pruned : List ZEntry) : ℚ :=
  match lastScore pruned with
  | none => now
  | some last_time =>
    let nt := last_time + 1 / rate
    if nt ≤ now then now else nt

lemma foldlMax_init (es : List ZEntry) (a : ℚ) :
    a ≤ es.foldl (fun x b => max x b.score) a := by
  induction es generalizing a with
  | nil => exact le_refl a
  | cons e es ih => exact le_trans (le_max_left a e.score) (ih (max a e.score))

lemma foldlMax_mem (es : List ZEntry) :
    ∀ (a : ℚ) (e : ZEntry), e ∈ es →
      e.score ≤ es.foldl (fun x b => max x b.score) a := by
  induction es with
  | nil => intro a e he; cases he
  | cons f fs ih =>
    intro a e he
    rcases List.mem_cons.mp he with h | h
    · subst h
      exact le_trans (le_max_right a e.score) (foldlMax_init fs (max a e.score))
    · exact ih (max a f.score) e h

/-- Every score in the record is bounded by the score `ZREVRANGE key 0 0`
reports. -/
lemma lastScore_ge (es : List ZEntry) (m : ℚ) (h : lastScore es = some m)
    (e : ZEntry) (he : e ∈ es) : e.score ≤ m := by
  cases es with
  | nil => cases he
  | cons f fs =>
    have hm : fs.foldl (fun x b => max x b.score) f.score = m := by
      simpa [lastScore] using h
    subst hm
    rcases List.mem_cons.mp he with h | h
    · subst h; exact foldlMax_init fs e.score
    · exact foldlMax_mem fs f.score e h

lemma lastScore_of_ne_nil (es : List ZEntry) (h : es ≠ []) :
    ∃ m, lastScore es = some m := by
  cases es with
  | nil => exact absurd rfl h
  | cons f fs => exact ⟨_, rfl⟩

/-- `ZADD` with a member absent from the set inserts a fresh entry. -/
lemma zadd_of_fresh (es : List ZEntry) (s mv : ℚ)
    (h : ∀ e ∈ es, e.member ≠ mv) : zadd es s mv = ⟨mv, s⟩ :: es := by
  unfold zadd
  rw [if_neg]
  simp only [List.any_eq_true, decide_eq_true_eq, not_exists]
  intro e
  by_cases he : e ∈ es
  · simp [he, h e he]
  · simp [he]

/-- With a positive rate, the computed `next_time` is strictly above every
score surviving the prune, hence (score == member) a fresh member. -/
lemma specNextTime_fresh (now rate : ℚ) (hr : 0 < rate)
    (pruned : List ZEntry) (hms : ∀ e ∈ pruned, e.member = e.score) :
    ∀ e ∈ pruned, e.member ≠ specNextTime now rate pruned := by
  intro e he
  obtain ⟨m, hm⟩ := lastScore_of_ne_nil pruned (by rintro rfl; cases he)
  have hle : e.score ≤ m := lastScore_ge pruned m hm e he
  have hint : 0 < 1 / rate := by positivity
  have hmem : e.member = e.score := hms e he
  unfold specNextTime
  rw [hm]
  dsimp only
  split
  · rename_i hcoll
    intro hc
    rw [hmem] at hc
    linarith
  · rename_i hncoll
    intro hc
    rw [hmem] at hc
    linarith

/-- The Lua script, re-expressed through the spec-side `next_time` formula:
prune, `ZADD` the computed `next_time` (score and member alike), set the TTL
to 2, return `max 0 (next_time - ts)`. -/
lemma luaScript_spec (key : String) (ts rate : ℚ) (st : Store) :
    luaScript key ts rate st =
      (fun k => if k = key then
          ⟨zadd (pruneEntries ts (st key).entries)
                (specNextTime ts rate (pruneEntries ts (st key).entries))
                (specNextTime ts rate (pruneEntries ts (st key).entries)),
           some 2⟩
        else st k,
       max 0 (specNextTime ts rate (pruneEntries ts (st key).entries) - ts)) := by
  unfold luaScript specNextTime
  cases h : lastScore (pruneEntries ts (st key).entries) with
  | none => simp [h]
  | some m => simp only [h]

/-- The decode step applied to a wait of shape `max 0 x` is the identity. -/
lemma decode_max (x : ℚ) : (if max 0 x ≤ 0 then (0:ℚ) else max 0 x) = max 0 x := by
  rcases le_or_lt (max 0 x) 0 with h | h
  · rw [if_pos h]
    exact le_antisymm (le_max_left 0 x) h
  · rw [if_neg (not_le.mpr h)]

/-- Pruning preserves well-formedness of a record. -/
lemma WF_prune (ts : ℚ) (es : List ZEntry) (h : WF es) :
    WF (pruneEntries ts es) := by
  obtain ⟨hms, hnd⟩ := h
  constructor
  · intro e he
    exact hms e (List.mem_of_mem_filter he)
  · exact hnd.sublist ((List.filter_sublist es).map ZEntry.member)

/-- `ZADD key t t` preserves well-formedness of a record. -/
lemma WF_zadd (es : List ZEntry) (t : ℚ) (h : WF es) : WF (zadd es t t) := by
  obtain ⟨hms, hnd⟩ := h
  unfold zadd
  split
  · constructor
    · intro e he
      obtain ⟨f, hf, hfe⟩ := List.mem_map.mp he
      by_cases hft : f.member = t
      · rw [if_pos hft] at hfe
        rw [← hfe, hft]
      · rw [if_neg hft] at hfe
        rw [← hfe]
        exact hms f hf
    · have : (es.map fun e => if e.member = t then ZEntry.mk e.member t else e).map
          ZEntry.member = es.map ZEntry.member := by
        rw [List.map_map]
        refine List.map_congr_left ?_
        intro e _
        by_cases hft : e.member = t
        · simp [hft]
        · simp [hft]
      rw [this]
      exact hnd
  · rename_i hany
    constructor
    · intro e he
      rcases List.mem_cons.mp he with h | h
      · rw [h]
      · exact hms e h
    · refine List.nodup_cons.mpr ⟨?_, hnd⟩
      intro hmem
      obtain ⟨f, hf, hft⟩ := List.mem_map.mp hmem
      exact hany (List.any_eq_true.mpr ⟨f, hf, decide_eq_true hft⟩)

/-- Well-formedness of every record is preserved by each successful
round-trip, hence holds in every reachable store. -/
lemma reachable_WF (st : Store) (h : Reachable st) :
    ∀ k, WF (st k).entries := by
  induction h with
  | empty =>
    intro k
    exact ⟨fun e he => absurd he (List.not_mem_nil e), List.nodup_nil⟩
  | step st key now rate hr h ih =>
    intro k
    rw [luaScript_spec]
    dsimp only
    by_cases hk : k = key
    · rw [if_pos hk]
      exact WF_zadd _ _ (WF_prune now _ (ih key))
    · rw [if_neg hk]
      exact ih k

/-- A prune that touches nothing: every score is inside the window. -/
lemma pruneEntries_keep_all (ts : ℚ) (es : List ZEntry)
    (h : ∀ e ∈ es, ¬ e.score ≤ ts - 1) : pruneEntries ts es = es := by
  unfold pruneEntries
  refine List.filter_eq_self.mpr ?_
  intro e he
  exact decide_eq_true (h e he)

/-- Evaluation lemma for one `Allow` round-trip: given the record's entries,
their pruned form, and the computed `next_time` (fresh among the survivors),
the call returns `max 0 (next_time - t)` and leaves the new token in front
of the survivors. -/
lemma Allow_closed (Client : Type) (lb : LeakyBucketRedis Client) (t : ℚ)
    (st : Store) (es ps : List ZEntry) (nt : ℚ)
    (hes : (st lb.key).entries = es)
    (hps : pruneEntries t es = ps)
    (hnt : specNextTime t lb.rate ps = nt)
    (hfresh : ∀ e ∈ ps, e.member ≠ nt) :
    (Allow lb t st).1 = max 0 (nt - t) ∧
    ((Allow lb t st).2 lb.key).entries = ZEntry.mk nt nt :: ps := by
  constructor
  · show (if (luaScript lb.key t lb.rate st).2 ≤ 0 then 0
        else (luaScript lb.key t lb.rate st).2) = _
    rw [luaScript_spec]
    dsimp only
    rw [hes, hps, hnt]
    exact decode_max _
  · show ((luaScript lb.key t lb.rate st).1 lb.key).entries = _
    rw [luaScript_spec]
    dsimp only
    rw [if_pos rfl]
    dsimp only
    rw [hes, hps, hnt]
    exact zadd_of_fresh ps nt nt hfresh

/-- C4: for every outcome of the store round-trip — an error (store
unreachable, timeout, or the context already cancelled, all surfacing as
`err != nil` from Eval, modelled by `reply = none`) or a reply string that
`strconv.ParseFloat` cannot parse — `Allow` returns the duration 0; the
decode always yields a non-negative duration, never an error. -/
theorem allow_fail_open (reply : Option String) (parse : String → Option ℚ) :
    (reply = none → allowDecode reply parse = 0) ∧
    (∀ s, reply = some s → parse s = none → allowDecode reply parse = 0) ∧
    0 ≤ allowDecode reply parse := by
  refine ⟨?_, ?_, ?_⟩
  · rintro rfl; rfl
  · rintro s rfl hp
    simp [allowDecode, hp]
  · cases reply with
    | none => simp [allowDecode]
    | some s =>
      cases hp : parse s with
      | none => simp [allowDecode, hp]
      | some w =>
        simp only [allowDecode, hp]
        split
        · exact le_refl 0
        · rename_i h
          exact (not_le.mp h).le

/-- Witness for C4: a failed round-trip and an unparseable reply both yield
the duration 0. -/
theorem allow_fail_open_witness :
    allowDecode none (fun _ => none) = 0 ∧
    allowDecode (some "x") (fun _ => none) = 0 :=
  ⟨(allow_fail_open none (fun _ => none)).1 rfl,
   (allow_fail_open (some "x") (fun _ => none)).2.1 "x" rfl rfl⟩

/-- C5: `NewLeakyBucket(client, key, rate)` yields nil exactly when the key
is empty or the rate is ≤ 0; in particular an empty key with any rate, rate
0, and rate -5 each yield nil, while key "x" with rate 10.0 yields an
instance holding that client, key and rate. -/
theorem new_leaky_bucket_validation (Client : Type) (client : Client)
    (key : String) (rate : ℚ) :
    (NewLeakyBucket client key rate = none ↔ key = "" ∨ rate ≤ 0) ∧
    NewLeakyBucket client "" rate = none ∧
    NewLeakyBucket client key 0 = none ∧
    NewLeakyBucket client key (-5) = none ∧
    NewLeakyBucket client "x" (10:ℚ) = some ⟨client, "x", 10⟩ := by
  refine ⟨?_, ?_, ?_, ?_, ?_⟩
  · unfold NewLeakyBucket
    split
    · rename_i h; simp [h]
    · rename_i h; simp [h]
  · simp [NewLeakyBucket]
  · simp [NewLeakyBucket]
  · norm_num [NewLeakyBucket]
  · unfold NewLeakyBucket
    rw [if_neg]
    push_neg
    exact ⟨by decide, by norm_num⟩

/-- C8: an `Allow` on the bucket for key `lb.key` leaves the record of every
other key — entries and time-to-live alike — untouched. -/
theorem allow_frame (Client : Type) (lb : LeakyBucketRedis Client) (now : ℚ)
    (st : Store) (k : String) (hk : k ≠ lb.key) :
    (Allow lb now st).2 k = st k := by
  show (luaScript lb.key now lb.rate st).1 k = st k
  rw [luaScript_spec]
  exact if_neg hk

/-- Witness for C8: an `Allow` on key "a" leaves the record at key "b"
unchanged. -/
theorem allow_frame_witness :
    (Allow (LeakyBucketRedis.mk () "a" 1) 0 emptyStore).2 "b" = emptyStore "b" :=
  allow_frame Unit (LeakyBucketRedis.mk () "a" 1) 0 emptyStore "b" (by decide)

/-- C9: every `Allow` whose round-trip succeeds runs `EXPIRE key 2`, so the
bucket record's time-to-live is 2 seconds afterwards, for every store state,
timestamp and rate — whether the computed wait is 0 or positive. -/
theorem allow_sets_ttl (Client : Type) (lb : LeakyBucketRedis Client)
    (now : ℚ) (st : Store) :
    ((Allow lb now st).2 lb.key).ttl = some 2 := by
  show ((luaScript lb.key now lb.rate st).1 lb.key).ttl = some 2
  rw [luaScript_spec]
  dsimp only
  rw [if_pos rfl]

/-- C10: the package defines the sentinel errors `ErrInvalidRate` and
`ErrInvalidKey`, but neither `NewLeakyBucket` nor `Allow` ever hands either
of them back: construction signals invalid configuration only by returning
nil, and `Allow` always returns a duration. -/
theorem sentinels_never_returned (Client : Type) (client : Client)
    (key : String) (rate : ℚ) (reply : Option String)
    (parse : String → Option ℚ) :
    constructReturn client key rate ≠ GoValue.errVal ErrInvalidRate ∧
    constructReturn client key rate ≠ GoValue.errVal ErrInvalidKey ∧
    allowReturn Client reply parse ≠ GoValue.errVal ErrInvalidRate ∧
    allowReturn Client reply parse ≠ GoValue.errVal ErrInvalidKey ∧
    ((key = "" ∨ rate ≤ 0) → constructReturn client key rate = GoValue.ptr none) := by
  refine ⟨by simp [constructReturn], by simp [constructReturn],
    by simp [allowReturn], by simp [allowReturn], ?_⟩
  intro h
  unfold constructReturn NewLeakyBucket
  rw [if_pos h]

/-- Witness for C10: the invalid configuration with an empty key is reported
by the nil pointer, not by an error value. -/
theorem sentinels_never_returned_witness :
    constructReturn () "" (1:ℚ) = GoValue.ptr none :=
  (sentinels_never_returned Unit () "" 1 none (fun _ => none)).2.2.2.2 (Or.inl rfl)

/-- C1: on a record obeying the data model (score == member), a successful
`Allow` at time `now` computes `next_time` exactly as the spec words it over
the pruned record (`now` when empty, else `last_time + 1/rate` collapsed to
`now` when ≤ `now`), inserts exactly one new entry — scored and membered
`next_time`, fresh with respect to the surviving entries — and returns
`wait = max(0, next_time - now)`. -/
theorem allow_computes_spec_next_time (Client : Type)
    (lb : LeakyBucketRedis Client) (now : ℚ) (st : Store) (hr : 0 < lb.rate)
    (hwf : ∀ e ∈ (st lb.key).entries, e.member = e.score) :
    (pruneEntries now (st lb.key).entries = [] →
      specNextTime now lb.rate (pruneEntries now (st lb.key).entries) = now) ∧
    (∀ m, lastScore (pruneEntries now (st lb.key).entries) = some m →
      specNextTime now lb.rate (pruneEntries now (st lb.key).entries) =
        if m + 1 / lb.rate ≤ now then now else m + 1 / lb.rate) ∧
    ((Allow lb now st).2 lb.key).entries =
      ⟨specNextTime now lb.rate (pruneEntries now (st lb.key).entries),
       specNextTime now lb.rate (pruneEntries now (st lb.key).entries)⟩ ::
        pruneEntries now (st lb.key).entries ∧
    (∀ e ∈ pruneEntries now (st lb.key).entries,
      e.member ≠ specNextTime now lb.rate (pruneEntries now (st lb.key).entries)) ∧
    (Allow lb now st).1 =
      max 0 (specNextTime now lb.rate (pruneEntries now (st lb.key).entries) - now) := by
  have hms : ∀ e ∈ pruneEntries now (st lb.key).entries, e.member = e.score :=
    fun e he => hwf e (List.mem_of_mem_filter he)
  have hfresh := specNextTime_fresh now lb.rate hr _ hms
  refine ⟨?_, ?_, ?_, hfresh, ?_⟩
  · intro h
    rw [h]
    rfl
  · intro m hm
    unfold specNextTime
    rw [hm]
  · show ((luaScript lb.key now lb.rate st).1 lb.key).entries = _
    rw [luaScript_spec]
    dsimp only
    rw [if_pos rfl]
    exact zadd_of_fresh _ _ _ hfresh
  · show (if (luaScript lb.key now lb.rate st).2 ≤ 0 then 0
        else (luaScript lb.key now lb.rate st).2) = _
    rw [luaScript_spec]
    exact decode_max _

/-- Witness for C1: at rate 5, a fresh bucket admits the call at time 1 and
the record afterwards holds exactly the single token 1. -/
theorem allow_computes_spec_next_time_witness :
    ((Allow (LeakyBucketRedis.mk () "k" 5) 1 emptyStore).2 "k").entries =
      [ZEntry.mk 1 1] :=
  ((allow_computes_spec_next_time Unit (LeakyBucketRedis.mk () "k" 5) 1
    emptyStore (by norm_num) (by decide)).2.2.1).trans (by decide)

/-- C3 counterexample: at time 1 the script removes a token with score 0,
even though 0 ≥ 1 - 1; the claim says only scores strictly below `now - 1`
are removed (Redis ZREMRANGEBYSCORE treats its upper bound inclusively). -/
theorem prune_boundary_counterexample :
    ZEntry.mk 0 0 ∈ (((luaScript "k" 0 5 emptyStore).1) "k").entries ∧
    (0:ℚ) ≥ 1 - 1 ∧
    ZEntry.mk 0 0 ∉
      ((luaScript "k" 1 1 (luaScript "k" 0 5 emptyStore).1).1 "k").entries := by
  have h1 : ((luaScript "k" 0 5 emptyStore).1 "k").entries = [ZEntry.mk 0 0] := rfl
  have hp : pruneEntries 1 [ZEntry.mk 0 0] = [] := by
    unfold pruneEntries
    simp only [List.filter_cons, List.filter_nil]
    rw [if_neg]
    simp only [decide_eq_true_eq, not_not]
    show (0:ℚ) ≤ 1 - 1
    norm_num
  have h2 : ((luaScript "k" 1 1 (luaScript "k" 0 5 emptyStore).1).1 "k").entries =
      [ZEntry.mk 1 1] := by
    rw [luaScript_spec]
    dsimp only
    rw [if_pos rfl]
    dsimp only
    rw [h1, hp]
    rfl
  refine ⟨by rw [h1]; exact List.mem_singleton.mpr rfl, by norm_num, ?_⟩
  rw [h2]
  intro hmem
  rw [List.mem_singleton] at hmem
  have hm := congrArg ZEntry.member hmem
  norm_num at hm

/-- C3 amended: the first step of every `Allow` removes from the bucket
record exactly those entries whose score is ≤ `now - 1.0` (the one-second
window bound is inclusive): an entry of the record survives the prune if and
only if its score is strictly greater than `now - 1`. -/
theorem prune_exact (Client : Type) (lb : LeakyBucketRedis Client) (now : ℚ)
    (st : Store) (e : ZEntry) (he : e ∈ (st lb.key).entries) :
    e ∈ pruneEntries now (st lb.key).entries ↔ now - 1 < e.score := by
  unfold pruneEntries
  rw [List.mem_filter]
  simp [he, not_le]

/-- Witness for C3 (amended): a token with score 5 survives a prune at time
3. -/
theorem prune_exact_witness :
    ZEntry.mk 5 5 ∈
        pruneEntries 3 (((luaScript "k" 5 1 emptyStore).1 "k").entries) ↔
      (3:ℚ) - 1 < (ZEntry.mk 5 5).score :=
  prune_exact Unit (LeakyBucketRedis.mk () "k" 1) 3
    (luaScript "k" 5 1 emptyStore).1 (ZEntry.mk 5 5) (by decide)

/-- C7: in every store state reachable from the empty store by successful
`Allow` round-trips, every entry of every bucket record is scored by its own
member value, and no two distinct entries of a record share a score — in
particular at most one entry carries the most-recently-scheduled (highest)
spend time. -/
theorem reachable_invariants (st : Store) (h : Reachable st) (k : String) :
    (∀ e ∈ (st k).entries, e.member = e.score) ∧
    (∀ e1 ∈ (st k).entries, ∀ e2 ∈ (st k).entries,
      e1.score = e2.score → e1 = e2) := by
  obtain ⟨hms, hnd⟩ := reachable_WF st h k
  refine ⟨hms, ?_⟩
  intro e1 h1 e2 h2 hs
  refine List.inj_on_of_nodup_map hnd h1 h2 ?_
  rw [hms e1 h1, hms e2 h2, hs]

/-- Witness for C7: in the store reached by one `Allow` at time 0 and rate
5, the stored token's member equals its score. -/
theorem reachable_invariants_witness :
    (ZEntry.mk 0 0).member = (ZEntry.mk 0 0).score :=
  (reachable_invariants (luaScript "k" 0 5 emptyStore).1
    (Reachable.step emptyStore "k" 0 5 (by norm_num) Reachable.empty) "k").1
    (ZEntry.mk 0 0) (by decide)

/-- C6: for every positive rate, three `Allow` calls on the same key at the
same instant `t` (immediate succession idealised as zero elapsed time), from
an absent bucket record, return waits 0, 1/rate and 2/rate, so
wait3 > wait2 > wait1 = 0; in particular the first call on an idle bucket
returns 0. -/
theorem monotonic_backlog (Client : Type) (lb : LeakyBucketRedis Client)
    (t : ℚ) (hr : 0 < lb.rate) :
    (Allow lb t emptyStore).1 = 0 ∧
    (Allow lb t (Allow lb t emptyStore).2).1 = 1 / lb.rate ∧
    (Allow lb t (Allow lb t (Allow lb t emptyStore).2).2).1 = 2 / lb.rate ∧
    0 < (Allow lb t (Allow lb t emptyStore).2).1 ∧
    (Allow lb t (Allow lb t emptyStore).2).1 <
      (Allow lb t (Allow lb t (Allow lb t emptyStore).2).2).1 := by
  have hi : 0 < 1 / lb.rate := by positivity
  have c1 := Allow_closed Client lb t emptyStore [] [] t rfl rfl rfl
    (by intro e he; cases he)
  have w1 : (Allow lb t emptyStore).1 = 0 := by
    rw [c1.1]
    simp
  have hps2 : pruneEntries t [ZEntry.mk t t] = [ZEntry.mk t t] := by
    refine pruneEntries_keep_all t _ ?_
    intro e he
    rw [List.mem_singleton] at he
    subst he
    show ¬ t ≤ t - 1
    linarith
  have hnt2 : specNextTime t lb.rate [ZEntry.mk t t] = t + 1 / lb.rate := by
    rw [show specNextTime t lb.rate [ZEntry.mk t t] =
      if t + 1 / lb.rate ≤ t then t else t + 1 / lb.rate from rfl]
    rw [if_neg (not_le.mpr (by linarith))]
  have hfr2 : ∀ e ∈ [ZEntry.mk t t], e.member ≠ t + 1 / lb.rate := by
    intro e he
    rw [List.mem_singleton] at he
    subst he
    show t ≠ t + 1 / lb.rate
    intro h
    linarith
  have c2 := Allow_closed Client lb t (Allow lb t emptyStore).2 [ZEntry.mk t t]
    [ZEntry.mk t t] (t + 1 / lb.rate) c1.2 hps2 hnt2 hfr2
  have w2 : (Allow lb t (Allow lb t emptyStore).2).1 = 1 / lb.rate := by
    rw [c2.1, show t + 1 / lb.rate - t = 1 / lb.rate from by ring]
    exact max_eq_right hi.le
  have hps3 : pruneEntries t
      [ZEntry.mk (t + 1 / lb.rate) (t + 1 / lb.rate), ZEntry.mk t t] =
      [ZEntry.mk (t + 1 / lb.rate) (t + 1 / lb.rate), ZEntry.mk t t] := by
    refine pruneEntries_keep_all t _ ?_
    intro e he
    rcases List.mem_cons.mp he with rfl | he2
    · show ¬ t + 1 / lb.rate ≤ t - 1
      linarith
    · rw [List.mem_singleton] at he2
      subst he2
      show ¬ t ≤ t - 1
      linarith
  have hnt3 : specNextTime t lb.rate
      [ZEntry.mk (t + 1 / lb.rate) (t + 1 / lb.rate), ZEntry.mk t t] =
      t + 1 / lb.rate + 1 / lb.rate := by
    rw [show specNextTime t lb.rate
        [ZEntry.mk (t + 1 / lb.rate) (t + 1 / lb.rate), ZEntry.mk t t] =
      if max (t + 1 / lb.rate) t + 1 / lb.rate ≤ t then t
      else max (t + 1 / lb.rate) t + 1 / lb.rate from rfl]
    rw [max_eq_left (by linarith)]
    rw [if_neg (not_le.mpr (by linarith))]
  have hfr3 : ∀ e ∈ [ZEntry.mk (t + 1 / lb.rate) (t + 1 / lb.rate), ZEntry.mk t t],
      e.member ≠ t + 1 / lb.rate + 1 / lb.rate := by
    intro e he
    rcases List.mem_cons.mp he with rfl | he2
    · show t + 1 / lb.rate ≠ t + 1 / lb.rate + 1 / lb.rate
      intro h
      linarith
    · rw [List.mem_singleton] at he2
      subst he2
      show t ≠ t + 1 / lb.rate + 1 / lb.rate
      intro h
      linarith
  have c3 := Allow_closed Client lb t (Allow lb t (Allow lb t emptyStore).2).2
    [ZEntry.mk (t + 1 / lb.rate) (t + 1 / lb.rate), ZEntry.mk t t]
    [ZEntry.mk (t + 1 / lb.rate) (t + 1 / lb.rate), ZEntry.mk t t]
    (t + 1 / lb.rate + 1 / lb.rate) c2.2 hps3 hnt3 hfr3
  have w3 : (Allow lb t (Allow lb t (Allow lb t emptyStore).2).2).1 =
      2 / lb.rate := by
    rw [c3.1, show t + 1 / lb.rate + 1 / lb.rate - t = 2 / lb.rate from by ring]
    exact max_eq_right (by positivity)
  refine ⟨w1, w2, w3, ?_, ?_⟩
  · rw [w2]
    exact hi
  · rw [w2, w3]
    have h2 : (2:ℚ) / lb.rate = 1 / lb.rate + 1 / lb.rate := by ring
    linarith

/-- Witness for C6: at rate 5 and t = 0, the three waits are 0, 1/5 and 2/5,
strictly increasing. -/
theorem monotonic_backlog_witness :
    (0:ℚ) < (LeakyBucketRedis.mk () "k" (5:ℚ)).rate ∧
    ((Allow (LeakyBucketRedis.mk () "k" (5:ℚ)) 0 emptyStore).1 = 0 ∧
     (Allow (LeakyBucketRedis.mk () "k" (5:ℚ)) 0
        (Allow (LeakyBucketRedis.mk () "k" (5:ℚ)) 0 emptyStore).2).1 = 1 / 5 ∧
     (Allow (LeakyBucketRedis.mk () "k" (5:ℚ)) 0
        (Allow (LeakyBucketRedis.mk () "k" (5:ℚ)) 0
          (Allow (LeakyBucketRedis.mk () "k" (5:ℚ)) 0 emptyStore).2).2).1 = 2 / 5 ∧
     0 < (Allow (LeakyBucketRedis.mk () "k" (5:ℚ)) 0
        (Allow (LeakyBucketRedis.mk () "k" (5:ℚ)) 0 emptyStore).2).1 ∧
     (Allow (LeakyBucketRedis.mk () "k" (5:ℚ)) 0
        (Allow (LeakyBucketRedis.mk () "k" (5:ℚ)) 0 emptyStore).2).1 <
       (Allow (LeakyBucketRedis.mk () "k" (5:ℚ)) 0
         (Allow (LeakyBucketRedis.mk () "k" (5:ℚ)) 0
           (Allow (LeakyBucketRedis.mk () "k" (5:ℚ)) 0 emptyStore).2).2).1) :=
  ⟨by norm_num, monotonic_backlog Unit (LeakyBucketRedis.mk () "k" 5) 0 (by norm_num)⟩

/-- The spec's §8 concrete scenario bucket: rate 5 per second, key "k". -/
def scenarioBucket : LeakyBucketRedis Unit := ⟨(), "k", 5⟩

/-- Scenario call 1, at t = 0 s, on a fresh store. -/
def scenarioCall1 : ℚ × Store := Allow scenarioBucket 0 emptyStore

/-- Scenario call 2, at t = 0.001 s. -/
def scenarioCall2 : ℚ × Store := Allow scenarioBucket (1/1000) scenarioCall1.2

/-- Scenario call 3, at t = 0.200 s. -/
def scenarioCall3 : ℚ × Store := Allow scenarioBucket (1/5) scenarioCall2.2

lemma scenario_waits :
    scenarioCall1.1 = 0 ∧ scenarioCall2.1 = 199/1000 ∧ scenarioCall3.1 = 1/5 ∧
    (scenarioCall3.2 "k").entries =
      [ZEntry.mk (2/5) (2/5), ZEntry.mk (1/5) (1/5), ZEntry.mk 0 0] := by
  have c1 := Allow_closed Unit scenarioBucket 0 emptyStore [] [] 0 rfl rfl rfl
    (by intro e he; cases he)
  have w1 : scenarioCall1.1 = 0 := by
    show (Allow scenarioBucket 0 emptyStore).1 = 0
    rw [c1.1]
    simp
  have hps2 : pruneEntries (1/1000) [ZEntry.mk 0 0] = [ZEntry.mk 0 0] := by
    refine pruneEntries_keep_all _ _ ?_
    intro e he
    rw [List.mem_singleton] at he
    subst he
    show ¬ (0:ℚ) ≤ 1/1000 - 1
    norm_num
  have hnt2 : specNextTime (1/1000) scenarioBucket.rate [ZEntry.mk 0 0] = 1/5 := by
    rw [show specNextTime (1/1000) scenarioBucket.rate [ZEntry.mk 0 0] =
      if 0 + 1/(5:ℚ) ≤ 1/1000 then 1/1000 else 0 + 1/(5:ℚ) from rfl]
    rw [if_neg (by norm_num)]
    norm_num
  have hfr2 : ∀ e ∈ [ZEntry.mk 0 0], e.member ≠ 1/5 := by
    intro e he
    rw [List.mem_singleton] at he
    subst he
    show (0:ℚ) ≠ 1/5
    norm_num
  have c2 := Allow_closed Unit scenarioBucket (1/1000) scenarioCall1.2
    [ZEntry.mk 0 0] [ZEntry.mk 0 0] (1/5) c1.2 hps2 hnt2 hfr2
  have w2 : scenarioCall2.1 = 199/1000 := by
    show (Allow scenarioBucket (1/1000) scenarioCall1.2).1 = 199/1000
    rw [c2.1, show (1:ℚ)/5 - 1/1000 = 199/1000 from by norm_num]
    exact max_eq_right (by norm_num)
  have hps3 : pruneEntries (1/5) [ZEntry.mk (1/5) (1/5), ZEntry.mk 0 0] =
      [ZEntry.mk (1/5) (1/5), ZEntry.mk 0 0] := by
    refine pruneEntries_keep_all _ _ ?_
    intro e he
    rcases List.mem_cons.mp he with rfl | he2
    · show ¬ (1:ℚ)/5 ≤ 1/5 - 1
      norm_num
    · rw [List.mem_singleton] at he2
      subst he2
      show ¬ (0:ℚ) ≤ 1/5 - 1
      norm_num
  have hnt3 : specNextTime (1/5) scenarioBucket.rate
      [ZEntry.mk (1/5) (1/5), ZEntry.mk 0 0] = 2/5 := by
    rw [show specNextTime (1/5) scenarioBucket.rate
        [ZEntry.mk (1/5) (1/5), ZEntry.mk 0 0] =
      if max (1/(5:ℚ)) 0 + 1/5 ≤ 1/5 then 1/5 else max (1/(5:ℚ)) 0 + 1/5 from rfl]
    rw [max_eq_left (by norm_num)]
    rw [if_neg (by norm_num)]
    norm_num
  have hfr3 : ∀ e ∈ [ZEntry.mk (1/5) (1/5), ZEntry.mk 0 0], e.member ≠ 2/5 := by
    intro e he
    rcases List.mem_cons.mp he with rfl | he2
    · show (1:ℚ)/5 ≠ 2/5
      norm_num
    · rw [List.mem_singleton] at he2
      subst he2
      show (0:ℚ) ≠ 2/5
      norm_num
  have c3 := Allow_closed Unit scenarioBucket (1/5) scenarioCall2.2
    [ZEntry.mk (1/5) (1/5), ZEntry.mk 0 0]
    [ZEntry.mk (1/5) (1/5), ZEntry.mk 0 0] (2/5) c2.2 hps3 hnt3 hfr3
  have w3 : scenarioCall3.1 = 1/5 := by
    show (Allow scenarioBucket (1/5) scenarioCall2.2).1 = 1/5
    rw [c3.1, show (2:ℚ)/5 - 1/5 = 1/5 from by norm_num]
    exact max_eq_right (by norm_num)
  exact ⟨w1, w2, w3, c3.2⟩

/-- C2 counterexample: in the spec's scenario (rate 5/s, key "k", calls at
0 s, 0.001 s and 0.200 s from an absent record), calls 1 and 2 return 0 and
0.199 s as claimed, but call 3 returns 0.200 s — not approximately 0; it
exceeds even the spec's own 50 ms tolerance, because call 2's reservation at
0.200 is already the latest token. -/
theorem scenario_counterexample :
    scenarioCall1.1 = 0 ∧ scenarioCall2.1 = 199/1000 ∧
    scenarioCall3.1 = 1/5 ∧ ¬ scenarioCall3.1 ≤ 1/20 := by
  obtain ⟨w1, w2, w3, -⟩ := scenario_waits
  refine ⟨w1, w2, w3, ?_⟩
  rw [w3]
  norm_num

/-- C2 amended: calls 1 and 2 return 0 and 0.199 s (next_time 0.200); call 3
at t = 0.200 s returns 0.200 s, scheduling next_time = 0.400, since the slot
at 0.200 was reserved by call 2's insertion. -/
theorem scenario_amended :
    scenarioCall1.1 = 0 ∧ scenarioCall2.1 = 199/1000 ∧ scenarioCall3.1 = 1/5 ∧
    (scenarioCall3.2 "k").entries.head? = some (ZEntry.mk (2/5) (2/5)) := by
  obtain ⟨w1, w2, w3, e3⟩ := scenario_waits
  refine ⟨w1, w2, w3, ?_⟩
  rw [e3]
  rfl

end LeakyBucket
